import Mathlib

/-!
Verification of the S-box algebra core of this repository (the `sboxUv2`
library consumed by `sage_scripts/`).  The library itself ships outside
`src/`, so its operations are modelled from the specification (spec.md,
sections 3 and 4); the driver scripts under `src/sage_scripts/` supply the
literal tables and the function `G`.
-/

namespace SboxU

set_option maxRecDepth 1000000

/-- Modelled from the spec: bitwise XOR on bit-vectors (`oplus`, spec section 2,
BitVector utilities); the `sboxUv2` module is not under `src/`. -/
def oplus (a b : ℕ) : ℕ := a ^^^ b

/-- Modelled from the spec: the `Sb` / VectorialFunction representation
(spec section 3): a mapping from an `n`-bit domain to an `m`-bit codomain,
stored as an ordered table of `2 ^ n` integers each in `[0, 2 ^ m)`. -/
structure Sb where
  n : ℕ
  m : ℕ
  table : List ℕ
deriving DecidableEq

/-- Well-formedness invariant of a table (spec section 3): the length is
`2 ^ n` and every stored value fits in `m` bits. -/
def Sb.Wf (f : Sb) : Prop :=
  f.table.length = 2 ^ f.n ∧ ∀ v ∈ f.table, v < 2 ^ f.m

instance (f : Sb) : Decidable f.Wf := by
  unfold Sb.Wf; infer_instance

/-- Modelled from the spec: `evaluate(x)` is a table lookup (spec 4.1). -/
def Sb.eval (f : Sb) (x : ℕ) : ℕ := f.table.getD x 0

/-- Input size of a function, as bit length (spec 4.1). -/
def Sb.input_size (f : Sb) : ℕ := f.n

/-- Output size of a function, as bit length (spec 4.1). -/
def Sb.output_size (f : Sb) : ℕ := f.m

/-- Error taxonomy of the library (spec section 7). -/
inductive SbError where
  | dimensionMismatch
deriving DecidableEq

deriving instance DecidableEq for Except

/-- Modelled from the spec: `compose(g)` returns `h` with `h(x) = self(g(x))`;
requires `self.input_size == g.output_size`, fails with DimensionMismatch
otherwise (spec 4.1). -/
def Sb.compose (f g : Sb) : Except SbError Sb :=
  if f.input_size = g.output_size then
    .ok ⟨g.n, f.m, g.table.map f.eval⟩
  else
    .error .dimensionMismatch

/-- Modelled from the spec: `derivative(a)` returns the function
`x ↦ f(x) XOR f(x XOR a)` (spec 4.1). -/
def Sb.derivative (f : Sb) (a : ℕ) : Sb :=
  ⟨f.n, f.m, (List.range (2 ^ f.n)).map fun x => oplus (f.eval x) (f.eval (oplus x a))⟩

/-- Modelled from the spec: the difference distribution table;
`DDT[a][b]` counts the domain points `x` with `f(x) XOR f(x XOR a) = b`
(spec section 3, DifferenceTables). -/
def ddt (f : Sb) : List (List ℕ) :=
  (List.range (2 ^ f.n)).map fun a =>
    (List.range (2 ^ f.m)).map fun b =>
      ((List.range (2 ^ f.n)).filter fun x => oplus (f.eval x) (f.eval (oplus x a)) == b).length

/-- Modelled from the spec: `feistel_round(f)`: for `f : n → n` the `2n`-bit
function `g(x,y) = (y, x XOR f(y))`, the most-significant `n` bits being the
left half `x` (spec 4.5). -/
def feistel_round (f : Sb) : Sb :=
  ⟨2 * f.n, 2 * f.n,
    (List.range (2 ^ (2 * f.n))).map fun z =>
      (z % 2 ^ f.n) * 2 ^ f.n + oplus (z / 2 ^ f.n) (f.eval (z % 2 ^ f.n))⟩

/-- Modelled from the spec: `swap_halves(total_bits)`, the permutation
exchanging the two `total_bits/2`-bit halves (spec 4.5). -/
def swap_halves (total : ℕ) : Sb :=
  ⟨total, total,
    (List.range (2 ^ total)).map fun z =>
      (z % 2 ^ (total / 2)) * 2 ^ (total / 2) + z / 2 ^ (total / 2)⟩

/-- Modelled from the spec: `is_affine(point_set)` is true iff for any three
points `a`, `b`, `c` of the set the point `a XOR b XOR c` is again in the set
(spec 4.2). -/
def is_affine (l : List ℕ) : Bool :=
  l.all fun a => l.all fun b => l.all fun c => l.contains (oplus (oplus a b) c)

/-- Modelled from the spec: the single-vector reduction step of `LinearBasis`
(spec 4.4): repeatedly XOR out the highest set bit of `v` using a basis vector
with the same highest set bit, until `v` is zero or no basis vector matches. -/
def reduceVec (basis : List ℕ) (v : ℕ) : ℕ :=
  if v = 0 then 0
  else
    match hf : basis.find? (fun b => b != 0 && Nat.log2 b == Nat.log2 v) with
    | none => v
    | some b => reduceVec basis (v ^^^ b)
termination_by v
decreasing_by
  have hp := List.find?_some hf
  simp only [Bool.and_eq_true, bne_iff_ne, beq_iff_eq, ne_eq] at hp
  obtain ⟨hb0, hlog⟩ := hp
  have htop : ∀ w : ℕ, w ≠ 0 → w.testBit w.log2 = true := by
    intro w hw
    rw [Nat.testBit_to_div_mod]
    have h1 : 2 ^ w.log2 ≤ w := Nat.log2_self_le hw
    have h2 : w < 2 ^ (w.log2 + 1) := Nat.lt_log2_self
    have hdiv : w / 2 ^ w.log2 = 1 := by
      have hlo : 1 ≤ w / 2 ^ w.log2 := (Nat.one_le_div_iff (Nat.two_pow_pos _)).2 h1
      have hhi : w / 2 ^ w.log2 < 2 := by
        rw [Nat.div_lt_iff_lt_mul (Nat.two_pow_pos _)]
        calc w < 2 ^ (w.log2 + 1) := h2
          _ = 2 * 2 ^ w.log2 := by rw [Nat.pow_succ, Nat.mul_comm]
      omega
    simp [hdiv]
  have htv : v.testBit v.log2 = true := htop v (by assumption)
  have htb : b.testBit v.log2 = true := by
    have := htop b hb0
    rwa [hlog] at this
  have hx : v ^^^ b < 2 ^ (v.log2 + 1) :=
    Nat.xor_lt_two_pow Nat.lt_log2_self (hlog ▸ Nat.lt_log2_self)
  have hlt : v ^^^ b < 2 ^ v.log2 := by
    apply Nat.lt_pow_two_of_testBit
    intro i hi
    rcases Nat.eq_or_lt_of_le hi with h | h
    · rw [← h, Nat.testBit_xor, htv, htb]; rfl
    · exact Nat.testBit_lt_two_pow
        (lt_of_lt_of_le hx (Nat.pow_le_pow_right (by omega) h))
  exact lt_of_lt_of_le hlt (Nat.log2_self_le (by assumption))

/-- Modelled from the spec: `BinLinearBasis` / `reduce` (spec 4.4): incremental
GF(2) Gaussian elimination over the input vectors; each vector is reduced
against the previously accepted ones and kept iff its reduction is nonzero. -/
def reduceStep (basis : List ℕ) (v : ℕ) : List ℕ :=
  let w := reduceVec basis v
  if w = 0 then basis else basis ++ [w]

def BinLinearBasis (vectors : List ℕ) : List ℕ :=
  vectors.foldl reduceStep []

/-- Modelled from the spec: `is_in_span(basis, vector)` (spec 4.4): reduce the
vector against the basis the same way; true iff the reduction yields zero. -/
def is_in_span (basis : List ℕ) (v : ℕ) : Bool :=
  reduceVec basis v == 0

/-- Semantic GF(2) span of a list of vectors, by recursion on the list: the
set of values obtainable by XOR-ing a sub-collection of the list. -/
def InSpan : List ℕ → ℕ → Prop
  | [], v => v = 0
  | b :: bs, v => InSpan bs v ∨ InSpan bs (v ^^^ b)

/-- Echelon invariant maintained by basis reduction: all basis vectors are
nonzero and have pairwise distinct highest set bits. -/
def Echelon (B : List ℕ) : Prop :=
  (∀ b ∈ B, b ≠ 0) ∧ B.Pairwise fun b₁ b₂ => Nat.log2 b₁ ≠ Nat.log2 b₂

/-- The commuting function `G` of src/sage_scripts/commutative.py lines 10-26:
the lookup table `N * (y XOR a) + (x XOR D_a f(y))` with `y` ranging over the
input space (outer loop), `x` over the output space (inner loop), `N = 2^n`. -/
def G (a : ℕ) (f : Sb) : Sb :=
  ⟨f.n + f.m, f.n + f.m,
    (List.range (2 ^ f.n)).flatMap fun y =>
      (List.range (2 ^ f.m)).map fun x =>
        2 ^ f.n * oplus y a + oplus x ((f.derivative a).eval y)⟩

/-- The round function `f1` of Scream's Feistel decomposition
(src/sage_scripts/good_sets.py line 169, src/sage_scripts/commutative.py line 46). -/
def scream_f1 : Sb := ⟨4, 4, [0, 2, 0, 0xB, 3, 0, 0, 0xA, 1, 0xE, 0, 6, 0xA, 4, 5, 2]⟩

/-- The round function `f2` of Scream's Feistel decomposition
(src/sage_scripts/good_sets.py line 170). -/
def scream_f2 : Sb := ⟨4, 4, [0, 2, 0xC, 7, 5, 0xF, 0xD, 6, 4, 0xE, 8, 9, 3, 1, 0xB, 0xA]⟩

/-- The round function `f3` of Scream's Feistel decomposition
(src/sage_scripts/good_sets.py line 171). -/
def scream_f3 : Sb := ⟨4, 4, [2, 0, 0xB, 0, 0, 3, 0xA, 0, 0xE, 1, 6, 0, 4, 0xA, 2, 5]⟩

/-- Modelled from the spec: the 256-entry lookup table of the reference cipher
Scream, supplied to the scripts as the external test fixture
`sboxes["Scream"]`, which is not under `src/` (spec section 8, end-to-end
scenario).  The literal below is the fixed table of Scream's 8-bit S-box. -/
def scream_fixture : List ℕ :=
  [0x20, 0x8D, 0xB2, 0xDA, 0x33, 0x35, 0xA6, 0xFF, 0x7A, 0x52, 0x6A, 0xC6, 0xA4, 0xA8, 0x51, 0x23,
   0xA2, 0x96, 0x30, 0xAB, 0xC8, 0x17, 0x14, 0x9E, 0xE8, 0xF3, 0xF8, 0xDD, 0x85, 0xE2, 0x4B, 0xD8,
   0x6C, 0x01, 0x0E, 0x3D, 0xB6, 0x39, 0x4A, 0x83, 0x6F, 0xAA, 0x86, 0x6E, 0x68, 0x40, 0x98, 0x5F,
   0x37, 0x13, 0x05, 0x87, 0x04, 0x82, 0x31, 0x89, 0x24, 0x38, 0x9D, 0x54, 0x22, 0x7B, 0x63, 0xBD,
   0x75, 0x2C, 0x47, 0xE9, 0xC2, 0x60, 0x43, 0xAC, 0x57, 0xA1, 0x1F, 0x27, 0xE7, 0xAD, 0x5C, 0xD2,
   0x0F, 0x77, 0xFD, 0x08, 0x79, 0x3A, 0x49, 0x5D, 0xED, 0x90, 0x65, 0x7C, 0x56, 0x4F, 0x2E, 0x69,
   0xCD, 0x44, 0x3F, 0x62, 0x5B, 0x88, 0x6B, 0xC4, 0x5E, 0x2D, 0x67, 0x0B, 0x9F, 0x21, 0x29, 0x2A,
   0xD6, 0x7E, 0x74, 0xE0, 0x41, 0x73, 0x50, 0x76, 0x55, 0x97, 0x3C, 0x09, 0x7D, 0x5A, 0x92, 0x70,
   0x84, 0xB9, 0x26, 0x34, 0x1D, 0x81, 0x32, 0x2B, 0x36, 0x64, 0xAE, 0xC0, 0x00, 0xEE, 0x8F, 0xA7,
   0xBE, 0x58, 0xDC, 0x7F, 0xEC, 0x9B, 0x78, 0x10, 0xCC, 0x2F, 0x94, 0xF1, 0x3B, 0x9C, 0x6D, 0x16,
   0x48, 0xB5, 0xCA, 0x11, 0xFA, 0x0D, 0x8E, 0x07, 0xB1, 0x0C, 0x12, 0x28, 0x4C, 0x46, 0xF4, 0x8B,
   0xA9, 0xCF, 0xBB, 0x03, 0xA0, 0xFC, 0xEF, 0x25, 0x80, 0xF6, 0xB3, 0xBA, 0x3E, 0xF7, 0xD5, 0x91,
   0xC3, 0x8A, 0xC1, 0x45, 0xDE, 0x66, 0xF5, 0x0A, 0xC9, 0x15, 0xD9, 0xA3, 0x61, 0x99, 0xB0, 0xE4,
   0xD1, 0xFB, 0xD3, 0x4E, 0xBF, 0xD4, 0xD7, 0x71, 0xCB, 0x1E, 0xDB, 0x02, 0x1A, 0x93, 0xEA, 0xC5,
   0xEB, 0x72, 0xF9, 0x1C, 0xE5, 0xCE, 0x4D, 0xF2, 0x42, 0x19, 0xE1, 0xDF, 0x59, 0x95, 0xB7, 0x8C,
   0x9A, 0xF0, 0x18, 0xE6, 0xC7, 0xAF, 0xBC, 0xB8, 0xE3, 0x1B, 0xD0, 0xA5, 0x53, 0xB4, 0x06, 0xFE]

/-- The composed Feistel network of Scream, in the composition order of
src/sage_scripts/good_sets.py line 173:
`swap_halves(8) ∘ feistel_round(f3) ∘ feistel_round(f2) ∘ feistel_round(f1)`. -/
def scream_network : Except SbError Sb := do
  let s1 ← (feistel_round scream_f2).compose (feistel_round scream_f1)
  let s2 ← (feistel_round scream_f3).compose s1
  (swap_halves 8).compose s2

theorem oplus_eq (a b : ℕ) : oplus a b = a ^^^ b := rfl

theorem getD_map_range {α : Type} (N x : ℕ) (g : ℕ → α) (d : α) (hx : x < N) :
    ((List.range N).map g).getD x d = g x := by
  rw [List.getD_eq_getElem?_getD, List.getElem?_map, List.getElem?_range hx]
  rfl

theorem getD_map_of_lt (l : List ℕ) (F : ℕ → ℕ) (x : ℕ) (hx : x < l.length) :
    (l.map F).getD x 0 = F (l.getD x 0) := by
  rw [List.getD_eq_getElem?_getD, List.getD_eq_getElem?_getD, List.getElem?_map,
    List.getElem?_eq_getElem hx]
  rfl

theorem eval_lt {f : Sb} (hwf : f.Wf) {x : ℕ} (hx : x < 2 ^ f.n) :
    f.eval x < 2 ^ f.m := by
  have hx' : x < f.table.length := by rw [hwf.1]; exact hx
  rw [Sb.eval, List.getD_eq_getElem?_getD, List.getElem?_eq_getElem hx']
  exact hwf.2 _ (List.getElem_mem hx')

theorem combine_lt {H a b : ℕ} (ha : a < H) (hb : b < H) : a * H + b < H * H :=
  calc a * H + b < a * H + H := by omega
    _ = (a + 1) * H := by ring
    _ ≤ H * H := Nat.mul_le_mul_right H ha

/-- C1: the composed network `swap_halves(8) ∘ feistel_round(f3) ∘
feistel_round(f2) ∘ feistel_round(f1)` equals, entry for entry, the 256-entry
lookup table of the reference cipher Scream. -/
theorem scream_decomposition : scream_network = .ok ⟨8, 8, scream_fixture⟩ := by
  decide

/-- C4: for every `f`, every `a` in `[0, 2^n)` and every `x` in the domain,
`derivative(f, a)` evaluated at `x` is `f(x) XOR f(x XOR a)`; in particular
`derivative(f, 0)` vanishes on the domain. -/
theorem derivative_eval (f : Sb) (a x : ℕ) (ha : a < 2 ^ f.n) (hx : x < 2 ^ f.n) :
    (f.derivative a).eval x = f.eval x ^^^ f.eval (x ^^^ a) ∧
    (f.derivative 0).eval x = 0 := by
  constructor
  · rw [Sb.derivative, Sb.eval]
    simpa [oplus] using getD_map_range _ x
      (fun x => oplus (f.eval x) (f.eval (oplus x a))) 0 hx
  · rw [Sb.derivative, Sb.eval]
    have := getD_map_range (2 ^ f.n) x
      (fun x => oplus (f.eval x) (f.eval (oplus x 0))) 0 hx
    simpa [oplus] using this

theorem derivative_eval_witness :
    (1 < 2 ^ scream_f1.n) ∧ (3 < 2 ^ scream_f1.n) ∧
    ((scream_f1.derivative 1).eval 3 = scream_f1.eval 3 ^^^ scream_f1.eval (3 ^^^ 1) ∧
      (scream_f1.derivative 0).eval 3 = 0) :=
  ⟨by decide, by decide, derivative_eval scream_f1 1 3 (by decide) (by decide)⟩

/-- C5: for the literal tables `f1` and `f3`, `derivative(f1, 1)` equals
`derivative(f3, 1)` as functions, while some `a` in `[1, 15]` has
`derivative(f1, a) ≠ derivative(f3, a)`. -/
theorem derivative_coincidence :
    scream_f1.derivative 1 = scream_f3.derivative 1 ∧
    ∃ a, 1 ≤ a ∧ a ≤ 15 ∧ scream_f1.derivative a ≠ scream_f3.derivative a :=
  ⟨by decide, 2, by decide, by decide, by decide⟩

/-- C8: for every even `total_bits`, composing `swap_halves(total_bits)` with
itself yields the identity function on the `total_bits`-bit domain. -/
theorem swap_halves_involution (t : ℕ) (ht : t % 2 = 0) :
    (swap_halves t).compose (swap_halves t) = .ok ⟨t, t, List.range (2 ^ t)⟩ := by
  have hH : 2 ^ (t / 2) * 2 ^ (t / 2) = 2 ^ t := by
    rw [← Nat.pow_add]; congr 1; omega
  have hpos : 0 < 2 ^ (t / 2) := Nat.two_pow_pos _
  rw [Sb.compose,
    if_pos (show (swap_halves t).input_size = (swap_halves t).output_size from rfl)]
  set H := 2 ^ (t / 2) with hHdef
  set g : ℕ → ℕ := fun z => (z % H) * H + z / H with hg
  have hswap : swap_halves t = ⟨t, t, (List.range (2 ^ t)).map g⟩ := by
    rw [swap_halves]
  rw [hswap]
  simp only [Except.ok.injEq, Sb.mk.injEq, true_and]
  rw [List.map_map]
  have hmap : ∀ z ∈ List.range (2 ^ t),
      (Sb.eval ⟨t, t, (List.range (2 ^ t)).map g⟩ ∘ g) z = id z := by
    intro z hz
    rw [List.mem_range] at hz
    have hzH : z / H < H := by
      rw [Nat.div_lt_iff_lt_mul hpos, hH]; exact hz
    have hgz : g z < 2 ^ t := by
      rw [← hH]; exact combine_lt (Nat.mod_lt z hpos) hzH
    show Sb.eval ⟨t, t, (List.range (2 ^ t)).map g⟩ (g z) = z
    rw [Sb.eval]
    show ((List.range (2 ^ t)).map g).getD (g z) 0 = z
    rw [getD_map_range _ _ g 0 hgz]
    rw [hg]
    simp only
    have h1 : (z % H * H + z / H) % H = z / H := by
      rw [Nat.mul_comm (z % H) H, Nat.mul_add_mod]
      exact Nat.mod_eq_of_lt hzH
    have h2 : (z % H * H + z / H) / H = z % H := by
      rw [Nat.mul_comm (z % H) H, Nat.mul_add_div hpos, Nat.div_eq_of_lt hzH,
        Nat.add_zero]
    rw [h1, h2, Nat.mul_comm]
    exact Nat.div_add_mod z H
  rw [List.map_congr_left hmap, List.map_id]

theorem swap_halves_involution_witness :
    (4 % 2 = 0) ∧
    (swap_halves 4).compose (swap_halves 4) = .ok ⟨4, 4, List.range (2 ^ 4)⟩ :=
  ⟨rfl, swap_halves_involution 4 rfl⟩

/-- C9: composing `f` with `g` fails with DimensionMismatch exactly when
`f.input_size ≠ g.output_size`, and otherwise returns `h` with
`h(x) = f(g(x))` on the whole domain of `g`. -/
theorem compose_spec (f g : Sb) (hlen : g.table.length = 2 ^ g.n) :
    (f.input_size ≠ g.output_size → f.compose g = .error .dimensionMismatch) ∧
    (f.input_size = g.output_size →
      ∃ h, f.compose g = .ok h ∧ ∀ x, x < 2 ^ g.n → h.eval x = f.eval (g.eval x)) := by
  constructor
  · intro hne; rw [Sb.compose, if_neg hne]
  · intro heq
    refine ⟨⟨g.n, f.m, g.table.map f.eval⟩, by rw [Sb.compose, if_pos heq], ?_⟩
    intro x hx
    have hx' : x < g.table.length := by rw [hlen]; exact hx
    exact getD_map_of_lt _ _ _ hx'

theorem compose_spec_witness :
    ((scream_f1.input_size ≠ (feistel_round scream_f1).output_size) ∧
      scream_f1.compose (feistel_round scream_f1) = .error .dimensionMismatch) ∧
    ((scream_f2.input_size = scream_f1.output_size) ∧
      ∃ h, scream_f2.compose scream_f1 = .ok h ∧
        ∀ x, x < 2 ^ scream_f1.n → h.eval x = scream_f2.eval (scream_f1.eval x)) :=
  ⟨⟨by decide, (compose_spec scream_f1 (feistel_round scream_f1) (by decide)).1 (by decide)⟩,
    ⟨rfl, (compose_spec scream_f2 scream_f1 (by decide)).2 rfl⟩⟩

theorem mul_add_eq_iff {K a b c d : ℕ} (hb : b < K) (hd : d < K)
    (h : a * K + b = c * K + d) : a = c ∧ b = d := by
  have hKpos : 0 < K := Nat.lt_of_le_of_lt (Nat.zero_le b) hb
  have hdiv : ∀ u v : ℕ, v < K → (u * K + v) / K = u := by
    intro u v hv
    rw [Nat.mul_comm u K, Nat.mul_add_div hKpos, Nat.div_eq_of_lt hv, Nat.add_zero]
  have hac : a = c := by
    have := congrArg (· / K) h
    simpa [hdiv a b hb, hdiv c d hd] using this
  subst hac
  exact ⟨rfl, by omega⟩

theorem map_range_perm (N : ℕ) (g : ℕ → ℕ) (hlt : ∀ x, x < N → g x < N)
    (hinj : ∀ x, x < N → ∀ y, y < N → g x = g y → x = y) :
    ((List.range N).map g).Perm (List.range N) := by
  have hnd1 : ((List.range N).map g).Nodup := by
    refine List.Nodup.map_on ?_ (List.nodup_range N)
    intro x hx y hy hxy
    exact hinj x (List.mem_range.1 hx) y (List.mem_range.1 hy) hxy
  rw [List.perm_ext_iff_of_nodup hnd1 (List.nodup_range N)]
  intro a
  constructor
  · intro ha
    rcases List.mem_map.1 ha with ⟨x, hx, rfl⟩
    exact List.mem_range.2 (hlt x (List.mem_range.1 hx))
  · intro ha
    have haN := List.mem_range.1 ha
    have hsurj : ∃ x, x < N ∧ g x = a := by
      have hGinj : Function.Injective (fun i : Fin N => (⟨g i, hlt i i.2⟩ : Fin N)) := by
        intro i j hij
        exact Fin.ext (hinj i i.2 j j.2 (congrArg Fin.val hij))
      have hGsurj := Finite.surjective_of_injective hGinj
      rcases hGsurj ⟨a, haN⟩ with ⟨i, hi⟩
      exact ⟨i, i.2, congrArg Fin.val hi⟩
    rcases hsurj with ⟨x, hxN, rfl⟩
    exact List.mem_map.2 ⟨x, List.mem_range.2 hxN, rfl⟩

theorem eval_mod_div_lemma {K z : ℕ} (hK : 0 < K) (hz : z < K * K) :
    z / K < K := by
  rwa [Nat.div_lt_iff_lt_mul hK]

/-- C2: for every round function `f` from `n` bits to `n` bits, including every
non-injective one, `feistel_round(f)` is a bijection on its `2n`-bit domain,
mapping `(x, y)` to `(y, x XOR f(y))` with the most-significant `n` bits as the
left half. -/
theorem feistel_round_bijective (f : Sb) (hwf : f.Wf) (hnm : f.m = f.n)
    (x y : ℕ) (hx : x < 2 ^ f.n) (hy : y < 2 ^ f.n) :
    ((feistel_round f).table).Perm (List.range (2 ^ (2 * f.n))) ∧
    (feistel_round f).eval (x * 2 ^ f.n + y) = y * 2 ^ f.n + (x ^^^ f.eval y) := by
  set K := 2 ^ f.n with hK
  have hKpos : 0 < K := Nat.two_pow_pos _
  have hN : 2 ^ (2 * f.n) = K * K := by rw [two_mul, Nat.pow_add]
  have hevlt : ∀ w, w < K → f.eval w < K := by
    intro w hw
    have := eval_lt hwf (x := w) (by rw [← hK]; exact hw)
    rwa [hnm, ← hK] at this
  have htab : (feistel_round f).table =
      (List.range (2 ^ (2 * f.n))).map
        (fun z => (z % K) * K + ((z / K) ^^^ f.eval (z % K))) := rfl
  have hblt : ∀ z, z < K * K → (z % K) * K + ((z / K) ^^^ f.eval (z % K)) < K * K := by
    intro z hz
    exact combine_lt (Nat.mod_lt z hKpos)
      (Nat.xor_lt_two_pow (by rw [hK] at *; exact eval_mod_div_lemma hKpos hz)
        (by rw [hK] at *; exact hevlt _ (Nat.mod_lt z hKpos)))
  have hbinj : ∀ z₁, z₁ < K * K → ∀ z₂, z₂ < K * K →
      (z₁ % K) * K + ((z₁ / K) ^^^ f.eval (z₁ % K)) =
      (z₂ % K) * K + ((z₂ / K) ^^^ f.eval (z₂ % K)) → z₁ = z₂ := by
    intro z₁ h₁ z₂ h₂ heq
    have hx1 : (z₁ / K) ^^^ f.eval (z₁ % K) < K :=
      Nat.xor_lt_two_pow (eval_mod_div_lemma hKpos h₁) (hevlt _ (Nat.mod_lt z₁ hKpos))
    have hx2 : (z₂ / K) ^^^ f.eval (z₂ % K) < K :=
      Nat.xor_lt_two_pow (eval_mod_div_lemma hKpos h₂) (hevlt _ (Nat.mod_lt z₂ hKpos))
    obtain ⟨hmod, hxor⟩ := mul_add_eq_iff hx1 hx2 heq
    rw [hmod] at hxor
    have hdiv : z₁ / K = z₂ / K := by
      have := congrArg (· ^^^ f.eval (z₂ % K)) hxor
      simpa [Nat.xor_assoc] using this
    calc z₁ = K * (z₁ / K) + z₁ % K := (Nat.div_add_mod z₁ K).symm
      _ = K * (z₂ / K) + z₂ % K := by rw [hdiv, hmod]
      _ = z₂ := Nat.div_add_mod z₂ K
  constructor
  · rw [htab, hN]
    exact map_range_perm (K * K) _ hblt hbinj
  · have hidx : x * K + y < 2 ^ (2 * f.n) := by rw [hN]; exact combine_lt hx hy
    rw [Sb.eval, htab, getD_map_range _ _ _ 0 hidx]
    have hm : (x * K + y) % K = y := by
      rw [Nat.mul_comm x K, Nat.mul_add_mod]
      exact Nat.mod_eq_of_lt hy
    have hd : (x * K + y) / K = x := by
      rw [Nat.mul_comm x K, Nat.mul_add_div hKpos, Nat.div_eq_of_lt hy, Nat.add_zero]
    rw [hm, hd]

theorem feistel_round_bijective_witness :
    scream_f1.Wf ∧ scream_f1.m = scream_f1.n ∧
    (3 < 2 ^ scream_f1.n) ∧ (5 < 2 ^ scream_f1.n) ∧
    ((feistel_round scream_f1).table).Perm (List.range (2 ^ (2 * scream_f1.n))) ∧
    (feistel_round scream_f1).eval (3 * 2 ^ scream_f1.n + 5) =
      5 * 2 ^ scream_f1.n + (3 ^^^ scream_f1.eval 5) :=
  ⟨by decide, rfl, by decide, by decide,
    (feistel_round_bijective scream_f1 (by decide) rfl 3 5 (by decide) (by decide)).1,
    (feistel_round_bijective scream_f1 (by decide) rfl 3 5 (by decide) (by decide)).2⟩

theorem flatMap_range_map (M K : ℕ) (h : ℕ → ℕ → ℕ) :
    ((List.range M).flatMap fun y => (List.range K).map fun x => h y x) =
    (List.range (M * K)).map fun z => h (z / K) (z % K) := by
  induction M with
  | zero => simp
  | succ M ih =>
    rcases Nat.eq_zero_or_pos K with hK | hK
    · subst hK; simp
    rw [List.range_succ, List.flatMap_append, ih]
    rw [show (M + 1) * K = M * K + K by ring, List.range_add, List.map_append,
      List.map_map]
    congr 1
    · simp only [List.flatMap_cons, List.flatMap_nil, List.append_nil]
      refine (List.map_congr_left ?_).symm
      intro x hxm
      have hxK := List.mem_range.1 hxm
      have h1 : (M * K + x) / K = M := by
        rw [Nat.mul_comm M K, Nat.mul_add_div hK, Nat.div_eq_of_lt hxK, Nat.add_zero]
      have h2 : (M * K + x) % K = x := by
        rw [Nat.mul_comm M K, Nat.mul_add_mod]
        exact Nat.mod_eq_of_lt hxK
      simp [Function.comp, h1, h2]

theorem derivative_eval_lt {f : Sb} (hwf : f.Wf) {a y : ℕ} (ha : a < 2 ^ f.n)
    (hy : y < 2 ^ f.n) : (f.derivative a).eval y < 2 ^ f.m := by
  rw [Sb.derivative, Sb.eval]
  have := getD_map_range (2 ^ f.n) y
    (fun x => oplus (f.eval x) (f.eval (oplus x a))) 0 hy
  rw [this]
  show oplus (f.eval y) (f.eval (oplus y a)) < 2 ^ f.m
  rw [oplus_eq, oplus_eq]
  exact Nat.xor_lt_two_pow (eval_lt hwf hy) (eval_lt hwf (Nat.xor_lt_two_pow hy ha))

/-- C10: for every S-box `f` with equal input and output dimension `n` and
every `a` in `[0, 2^n)`, the table of `G(a, f)` built in
src/sage_scripts/commutative.py is a permutation of its `2n`-bit domain. -/
theorem G_invertible (f : Sb) (a : ℕ) (hwf : f.Wf) (hnm : f.m = f.n)
    (ha : a < 2 ^ f.n) : ((G a f).table).Perm (List.range (2 ^ (2 * f.n))) := by
  set K := 2 ^ f.n with hK
  have hKpos : 0 < K := Nat.two_pow_pos _
  have hN : 2 ^ (2 * f.n) = K * K := by rw [two_mul, Nat.pow_add]
  have hdlt : ∀ y, y < K → (f.derivative a).eval y < K := by
    intro y hy
    have := derivative_eval_lt hwf (a := a) (y := y) (by rw [← hK]; exact ha)
      (by rw [← hK]; exact hy)
    rwa [hnm, ← hK] at this
  have htab : (G a f).table =
      (List.range (2 ^ (2 * f.n))).map
        (fun z => ((z / K) ^^^ a) * K + ((z % K) ^^^ (f.derivative a).eval (z / K))) := by
    rw [G]
    simp only
    rw [hnm]
    rw [flatMap_range_map (2 ^ f.n) (2 ^ f.n)
      (fun y x => 2 ^ f.n * oplus y a + oplus x ((f.derivative a).eval y))]
    rw [two_mul, Nat.pow_add]
    refine List.map_congr_left ?_
    intro z hz
    rw [oplus_eq, oplus_eq, Nat.mul_comm]
  have hblt : ∀ z, z < K * K →
      ((z / K) ^^^ a) * K + ((z % K) ^^^ (f.derivative a).eval (z / K)) < K * K := by
    intro z hz
    exact combine_lt
      (Nat.xor_lt_two_pow (eval_mod_div_lemma hKpos hz) ha)
      (Nat.xor_lt_two_pow (Nat.mod_lt z hKpos) (hdlt _ (eval_mod_div_lemma hKpos hz)))
  have hbinj : ∀ z₁, z₁ < K * K → ∀ z₂, z₂ < K * K →
      ((z₁ / K) ^^^ a) * K + ((z₁ % K) ^^^ (f.derivative a).eval (z₁ / K)) =
      ((z₂ / K) ^^^ a) * K + ((z₂ % K) ^^^ (f.derivative a).eval (z₂ / K)) →
      z₁ = z₂ := by
    intro z₁ h₁ z₂ h₂ heq
    have hb1 : (z₁ % K) ^^^ (f.derivative a).eval (z₁ / K) < K :=
      Nat.xor_lt_two_pow (Nat.mod_lt z₁ hKpos) (hdlt _ (eval_mod_div_lemma hKpos h₁))
    have hb2 : (z₂ % K) ^^^ (f.derivative a).eval (z₂ / K) < K :=
      Nat.xor_lt_two_pow (Nat.mod_lt z₂ hKpos) (hdlt _ (eval_mod_div_lemma hKpos h₂))
    obtain ⟨hhi, hlo⟩ := mul_add_eq_iff hb1 hb2 heq
    have hdiv : z₁ / K = z₂ / K := by
      have := congrArg (· ^^^ a) hhi
      simpa [Nat.xor_assoc] using this
    rw [hdiv] at hlo
    have hmod : z₁ % K = z₂ % K := by
      have := congrArg (· ^^^ (f.derivative a).eval (z₂ / K)) hlo
      simpa [Nat.xor_assoc] using this
    calc z₁ = K * (z₁ / K) + z₁ % K := (Nat.div_add_mod z₁ K).symm
      _ = K * (z₂ / K) + z₂ % K := by rw [hdiv, hmod]
      _ = z₂ := Nat.div_add_mod z₂ K
  rw [htab, hN]
  exact map_range_perm (K * K) _ hblt hbinj

theorem G_invertible_witness :
    scream_f1.Wf ∧ scream_f1.m = scream_f1.n ∧ (1 < 2 ^ scream_f1.n) ∧
    ((G 1 scream_f1).table).Perm (List.range (2 ^ (2 * scream_f1.n))) :=
  ⟨by decide, rfl, by decide, G_invertible scream_f1 1 (by decide) rfl (by decide)⟩

theorem sum_map_add (r : List ℕ) (g h : ℕ → ℕ) :
    (r.map fun b => g b + h b).sum = (r.map g).sum + (r.map h).sum := by
  induction r with
  | nil => simp
  | cons x t ih => simp only [List.map_cons, List.sum_cons, ih]; omega

theorem sum_map_indicator_ge (M k : ℕ) (hk : M ≤ k) :
    ((List.range M).map fun b => if k == b then (1 : ℕ) else 0).sum = 0 := by
  induction M with
  | zero => simp
  | succ M ih =>
    rw [List.range_succ, List.map_append, List.sum_append]
    have hkM : (k == M) = false := by
      refine beq_eq_false_iff_ne.mpr ?_
      omega
    rw [ih (by omega)]
    simp only [List.map_cons, List.map_nil, List.sum_cons, List.sum_nil, hkM]
    simp

theorem sum_map_indicator (M k : ℕ) (hk : k < M) :
    ((List.range M).map fun b => if k == b then (1 : ℕ) else 0).sum = 1 := by
  induction M with
  | zero => omega
  | succ M ih =>
    rw [List.range_succ, List.map_append, List.sum_append]
    by_cases h : k = M
    · subst h
      rw [sum_map_indicator_ge k k (Nat.le_refl k)]
      simp
    · have hkM : (k == M) = false := beq_eq_false_iff_ne.mpr h
      rw [ih (by omega)]
      simp only [List.map_cons, List.map_nil, List.sum_cons, List.sum_nil, hkM]
      simp

theorem countP_sum (M : ℕ) (key : ℕ → ℕ) (l : List ℕ) (h : ∀ x ∈ l, key x < M) :
    ((List.range M).map fun b => (l.filter fun x => key x == b).length).sum
      = l.length := by
  induction l with
  | nil => simp
  | cons x t ih =>
    have hx := h x (by simp)
    have ht : ∀ y ∈ t, key y < M := fun y hy => h y (by simp [hy])
    have hsplit : ∀ b, ((x :: t).filter fun z => key z == b).length
        = (if key x == b then (1 : ℕ) else 0) + (t.filter fun z => key z == b).length := by
      intro b
      rw [List.filter_cons]
      cases hkb : (key x == b) <;> simp [hkb] <;> omega
    calc ((List.range M).map fun b => ((x :: t).filter fun z => key z == b).length).sum
        = ((List.range M).map fun b =>
            (if key x == b then (1 : ℕ) else 0) + (t.filter fun z => key z == b).length).sum := by
          exact congrArg List.sum (List.map_congr_left fun b _ => hsplit b)
      _ = ((List.range M).map fun b => if key x == b then (1 : ℕ) else 0).sum
            + ((List.range M).map fun b => (t.filter fun z => key z == b).length).sum :=
          sum_map_add _ _ _
      _ = 1 + t.length := by rw [sum_map_indicator M (key x) hx, ih ht]
      _ = (x :: t).length := by simp [Nat.add_comm]

/-- C3: for every function `f`, every row of the DDT sums to `2^n`, and the
zero row is `2^n` at column `0` and `0` at every other column. -/
theorem ddt_row_properties (f : Sb) (a b : ℕ) (hwf : f.Wf) (ha : a < 2 ^ f.n)
    (hb : b < 2 ^ f.m) (hb0 : b ≠ 0) :
    ((ddt f).getD a []).sum = 2 ^ f.n ∧
    ((ddt f).getD 0 []).getD 0 0 = 2 ^ f.n ∧
    ((ddt f).getD 0 []).getD b 0 = 0 := by
  have hrow : ∀ a', a' < 2 ^ f.n → (ddt f).getD a' [] =
      (List.range (2 ^ f.m)).map fun b' =>
        ((List.range (2 ^ f.n)).filter fun x =>
          oplus (f.eval x) (f.eval (oplus x a')) == b').length := by
    intro a' ha'
    rw [ddt]
    exact getD_map_range _ _ _ _ ha'
  have h0 : (0 : ℕ) < 2 ^ f.n := Nat.two_pow_pos _
  refine ⟨?_, ?_, ?_⟩
  · rw [hrow a ha]
    conv_rhs => rw [← List.length_range (2 ^ f.n)]
    apply countP_sum
    intro x hxmem
    have hx := List.mem_range.1 hxmem
    show (fun x => oplus (f.eval x) (f.eval (oplus x a))) x < 2 ^ f.m
    simp only [oplus_eq]
    exact Nat.xor_lt_two_pow (eval_lt hwf hx)
      (eval_lt hwf (Nat.xor_lt_two_pow hx ha))
  · rw [hrow 0 h0, getD_map_range _ 0 _ 0 (Nat.two_pow_pos f.m)]
    have hpt : ∀ x ∈ List.range (2 ^ f.n),
        (oplus (f.eval x) (f.eval (oplus x 0)) == (0 : ℕ)) = true := by
      intro x _
      simp [oplus_eq]
    rw [List.filter_congr hpt]
    simp
  · rw [hrow 0 h0, getD_map_range _ b _ 0 hb]
    have hpt : ∀ x ∈ List.range (2 ^ f.n),
        (oplus (f.eval x) (f.eval (oplus x 0)) == b) = false := by
      intro x _
      simp only [oplus_eq, Nat.xor_zero, Nat.xor_self]
      exact beq_eq_false_iff_ne.mpr fun h => hb0 h.symm
    rw [List.filter_congr hpt]
    simp

theorem ddt_row_properties_witness :
    scream_f1.Wf ∧ (1 < 2 ^ scream_f1.n) ∧ (3 < 2 ^ scream_f1.m) ∧ ((3 : ℕ) ≠ 0) ∧
    (((ddt scream_f1).getD 1 []).sum = 2 ^ scream_f1.n ∧
      ((ddt scream_f1).getD 0 []).getD 0 0 = 2 ^ scream_f1.n ∧
      ((ddt scream_f1).getD 0 []).getD 3 0 = 0) :=
  ⟨by decide, by decide, by decide, by decide,
    ddt_row_properties scream_f1 1 3 (by decide) (by decide) (by decide) (by decide)⟩

theorem testBit_log2_self {w : ℕ} (hw : w ≠ 0) : w.testBit w.log2 = true := by
  rw [Nat.testBit_to_div_mod]
  have h1 : 2 ^ w.log2 ≤ w := Nat.log2_self_le hw
  have h2 : w < 2 ^ (w.log2 + 1) := Nat.lt_log2_self
  have hdiv : w / 2 ^ w.log2 = 1 := by
    have hlo : 1 ≤ w / 2 ^ w.log2 := (Nat.one_le_div_iff (Nat.two_pow_pos _)).2 h1
    have hhi : w / 2 ^ w.log2 < 2 := by
      rw [Nat.div_lt_iff_lt_mul (Nat.two_pow_pos _)]
      calc w < 2 ^ (w.log2 + 1) := h2
        _ = 2 * 2 ^ w.log2 := by rw [Nat.pow_succ, Nat.mul_comm]
    omega
  simp [hdiv]

theorem xor_rearrange (p q r : ℕ) : (p ^^^ r) ^^^ (q ^^^ r) = p ^^^ q := by
  apply Nat.eq_of_testBit_eq
  intro i
  simp only [Nat.testBit_xor]
  cases p.testBit i <;> cases q.testBit i <;> cases r.testBit i <;> rfl

theorem xorClosed_card_pow :
    ∀ (n : ℕ) (S : Finset ℕ), S.card = n → 0 ∈ S →
      (∀ x ∈ S, ∀ y ∈ S, x ^^^ y ∈ S) → ∃ s, S.card = 2 ^ s := by
  intro n
  induction n using Nat.strong_induction_on with
  | _ n ih =>
    intro S hcard h0 hcl
    by_cases hall : ∀ x ∈ S, x = 0
    · have hS : S = {0} := by
        apply Finset.eq_singleton_iff_unique_mem.mpr
        exact ⟨h0, hall⟩
      exact ⟨0, by rw [hS]; simp⟩
    · push_neg at hall
      obtain ⟨t, htS, ht0⟩ := hall
      set k := Nat.log2 t with hk
      have htb : t.testBit k = true := testBit_log2_self ht0
      set A := S.filter (fun x => x.testBit k = false) with hA
      set B := S.filter (fun x => x.testBit k = true) with hB
      have hcardAB : A.card + B.card = S.card := by
        rw [hA, hB]
        have hsplit := Finset.filter_card_add_filter_neg_card_eq_card
          (s := S) (fun x => x.testBit k = false)
        have hfeq : Finset.filter (fun a => ¬ a.testBit k = false) S
            = Finset.filter (fun x => x.testBit k = true) S := by
          apply Finset.filter_congr
          intro x _
          simp
        rw [hfeq] at hsplit
        exact hsplit
      have hAB : A.card = B.card := by
        apply Finset.card_nbij' (fun x => x ^^^ t) (fun y => y ^^^ t)
        · intro x hx
          obtain ⟨hxS, hxb⟩ := Finset.mem_filter.1 hx
          refine Finset.mem_filter.2 ⟨hcl x hxS t htS, ?_⟩
          rw [Nat.testBit_xor, hxb, htb]
          rfl
        · intro y hy
          obtain ⟨hyS, hyb⟩ := Finset.mem_filter.1 hy
          refine Finset.mem_filter.2 ⟨hcl y hyS t htS, ?_⟩
          rw [Nat.testBit_xor, hyb, htb]
          rfl
        · intro x _
          rw [Nat.xor_assoc, Nat.xor_self, Nat.xor_zero]
        · intro y _
          rw [Nat.xor_assoc, Nat.xor_self, Nat.xor_zero]
      have h0A : 0 ∈ A := Finset.mem_filter.2 ⟨h0, by simp⟩
      have hclA : ∀ x ∈ A, ∀ y ∈ A, x ^^^ y ∈ A := by
        intro x hx y hy
        obtain ⟨hxS, hxb⟩ := Finset.mem_filter.1 hx
        obtain ⟨hyS, hyb⟩ := Finset.mem_filter.1 hy
        refine Finset.mem_filter.2 ⟨hcl x hxS y hyS, ?_⟩
        rw [Nat.testBit_xor, hxb, hyb]
        rfl
      have htB : t ∈ B := Finset.mem_filter.2 ⟨htS, htb⟩
      have hBpos : 0 < B.card := Finset.card_pos.2 ⟨t, htB⟩
      have hAlt : A.card < n := by omega
      obtain ⟨s, hs⟩ := ih A.card hAlt A rfl h0A hclA
      refine ⟨s + 1, ?_⟩
      rw [← hcardAB, ← hAB, hs, Nat.pow_succ]
      omega

theorem affine_closed_card_pow (S : Finset ℕ) (hne : S.Nonempty)
    (hcl : ∀ x ∈ S, ∀ y ∈ S, ∀ z ∈ S, x ^^^ y ^^^ z ∈ S) :
    ∃ s, S.card = 2 ^ s := by
  obtain ⟨a0, ha0⟩ := hne
  set T := S.image (fun x => x ^^^ a0) with hT
  have hinj : Function.Injective (fun x : ℕ => x ^^^ a0) := by
    intro u v huv
    have := congrArg (· ^^^ a0) huv
    simpa [Nat.xor_assoc] using this
  have hcardT : T.card = S.card := Finset.card_image_of_injective S hinj
  have h0T : 0 ∈ T := Finset.mem_image.2 ⟨a0, ha0, by simp⟩
  have hclT : ∀ u ∈ T, ∀ v ∈ T, u ^^^ v ∈ T := by
    intro u hu v hv
    obtain ⟨x, hx, rfl⟩ := Finset.mem_image.1 hu
    obtain ⟨y, hy, rfl⟩ := Finset.mem_image.1 hv
    refine Finset.mem_image.2 ⟨x ^^^ y ^^^ a0, hcl x hx y hy a0 ha0, ?_⟩
    show (x ^^^ y ^^^ a0) ^^^ a0 = (x ^^^ a0) ^^^ (y ^^^ a0)
    rw [xor_rearrange, Nat.xor_assoc, Nat.xor_self, Nat.xor_zero]
  obtain ⟨s, hs⟩ := xorClosed_card_pow T.card T rfl h0T hclT
  exact ⟨s, by rw [← hcardT]; exact hs⟩

/-- C6 counterexample: on the empty point set, `is_affine` returns true even
though the set's size, zero, is not a power of two. -/
theorem is_affine_empty_cex :
    is_affine ([] : List ℕ) = true ∧
    ¬ ∃ s : ℕ, (([] : List ℕ).toFinset.card = 2 ^ s) := by
  refine ⟨rfl, ?_⟩
  rintro ⟨s, hs⟩
  simp only [List.toFinset_nil, Finset.card_empty] at hs
  exact (Nat.two_pow_pos s).ne' hs.symm

/-- C6 (amended): `is_affine(point_set)` returns true iff for all points
`a`, `b`, `c` in the set, `a XOR b XOR c` is also in the set; any nonempty set
whose number of distinct points is not a power of two yields false. -/
theorem is_affine_spec (l : List ℕ) (hne : l ≠ []) :
    (is_affine l = true ↔ ∀ a ∈ l, ∀ b ∈ l, ∀ c ∈ l, a ^^^ b ^^^ c ∈ l) ∧
    ((¬ ∃ s : ℕ, l.toFinset.card = 2 ^ s) → is_affine l = false) := by
  have hiff : is_affine l = true ↔ ∀ a ∈ l, ∀ b ∈ l, ∀ c ∈ l, a ^^^ b ^^^ c ∈ l := by
    simp [is_affine, oplus, List.all_eq_true]
  refine ⟨hiff, ?_⟩
  intro hnp
  by_contra hfalse
  have htrue : is_affine l = true := by
    cases h : is_affine l
    · exact absurd h hfalse
    · rfl
  have hcl := hiff.1 htrue
  apply hnp
  have hclF : ∀ x ∈ l.toFinset, ∀ y ∈ l.toFinset, ∀ z ∈ l.toFinset,
      x ^^^ y ^^^ z ∈ l.toFinset := by
    intro x hx y hy z hz
    rw [List.mem_toFinset] at hx hy hz ⊢
    exact hcl x hx y hy z hz
  have hneF : l.toFinset.Nonempty := by
    obtain ⟨a, ha⟩ := List.exists_mem_of_ne_nil l hne
    exact ⟨a, List.mem_toFinset.2 ha⟩
  exact affine_closed_card_pow l.toFinset hneF hclF

theorem is_affine_spec_witness :
    (([0, 1, 2] : List ℕ) ≠ []) ∧ is_affine [0, 1, 2] = false := by
  refine ⟨by decide, ?_⟩
  apply (is_affine_spec [0, 1, 2] (by decide)).2
  rintro ⟨s, hs⟩
  have h3 : ([0, 1, 2] : List ℕ).toFinset.card = 3 := by decide
  rw [h3] at hs
  rcases s with _ | s
  · simp at hs
  · have hdvd : 2 ∣ 2 ^ (s + 1) := dvd_pow_self 2 (Nat.succ_ne_zero s)
    rw [← hs] at hdvd
    omega

theorem xor_log2_lt {v b : ℕ} (hv : v ≠ 0) (hb : b ≠ 0)
    (hlog : Nat.log2 b = Nat.log2 v) : v ^^^ b < v := by
  have htv : v.testBit v.log2 = true := testBit_log2_self hv
  have htb : b.testBit v.log2 = true := by
    have := testBit_log2_self hb
    rwa [hlog] at this
  have hx : v ^^^ b < 2 ^ (v.log2 + 1) :=
    Nat.xor_lt_two_pow Nat.lt_log2_self (hlog ▸ Nat.lt_log2_self)
  have hlt : v ^^^ b < 2 ^ v.log2 := by
    apply Nat.lt_pow_two_of_testBit
    intro i hi
    rcases Nat.eq_or_lt_of_le hi with h | h
    · rw [← h, Nat.testBit_xor, htv, htb]; rfl
    · exact Nat.testBit_lt_two_pow
        (lt_of_lt_of_le hx (Nat.pow_le_pow_right (by omega) h))
  exact lt_of_lt_of_le hlt (Nat.log2_self_le hv)

theorem log2_xor_of_lt {x y : ℕ} (hx : x ≠ 0) (h : Nat.log2 y < Nat.log2 x) :
    Nat.log2 (x ^^^ y) = Nat.log2 x := by
  set k := Nat.log2 x with hk
  have hyk : y < 2 ^ k := by
    calc y < 2 ^ (Nat.log2 y + 1) := Nat.lt_log2_self
      _ ≤ 2 ^ k := Nat.pow_le_pow_right (by omega) (by omega)
  have htx : x.testBit k = true := testBit_log2_self hx
  have hty : y.testBit k = false := Nat.testBit_lt_two_pow hyk
  have htxor : (x ^^^ y).testBit k = true := by
    rw [Nat.testBit_xor, htx, hty]
    rfl
  have hge : 2 ^ k ≤ x ^^^ y := Nat.testBit_implies_ge htxor
  have hlt : x ^^^ y < 2 ^ (k + 1) :=
    Nat.xor_lt_two_pow Nat.lt_log2_self
      (lt_of_lt_of_le hyk (Nat.pow_le_pow_right (by omega) (Nat.le_succ k)))
  have hne : x ^^^ y ≠ 0 := by
    have := Nat.two_pow_pos k
    omega
  have h1 : k ≤ Nat.log2 (x ^^^ y) := (Nat.le_log2 hne).2 hge
  have h2 : Nat.log2 (x ^^^ y) < k + 1 := (Nat.log2_lt hne).2 hlt
  omega

theorem inSpan_zero (B : List ℕ) : InSpan B 0 := by
  induction B with
  | nil => rfl
  | cons b bs ih => exact Or.inl ih

theorem inSpan_mem {B : List ℕ} {b : ℕ} (hb : b ∈ B) : InSpan B b := by
  induction B with
  | nil => cases hb
  | cons c bs ih =>
    rcases List.mem_cons.1 hb with rfl | h
    · exact Or.inr (by rw [Nat.xor_self]; exact inSpan_zero bs)
    · exact Or.inl (ih h)

theorem inSpan_xor {B : List ℕ} {u v : ℕ} (hu : InSpan B u) (hv : InSpan B v) :
    InSpan B (u ^^^ v) := by
  induction B generalizing u v with
  | nil =>
    rw [show u = 0 from hu, show v = 0 from hv]
    rfl
  | cons b bs ih =>
    rcases hu with hu | hu <;> rcases hv with hv | hv
    · exact Or.inl (ih hu hv)
    · refine Or.inr ?_
      rw [Nat.xor_assoc]
      exact ih hu hv
    · refine Or.inr ?_
      have heq : (u ^^^ v) ^^^ b = (u ^^^ b) ^^^ v := by
        rw [Nat.xor_assoc, Nat.xor_assoc, Nat.xor_comm v b]
      rw [heq]
      exact ih hu hv
    · refine Or.inl ?_
      rw [← xor_rearrange u v b]
      exact ih hu hv

theorem inSpan_append {B : List ℕ} {v : ℕ} (h : InSpan B v) (C : List ℕ) :
    InSpan (B ++ C) v := by
  induction B generalizing v with
  | nil =>
    rw [show v = 0 from h, List.nil_append]
    exact inSpan_zero C
  | cons b bs ih =>
    rcases h with h | h
    · exact Or.inl (ih h)
    · exact Or.inr (ih h)

theorem inSpan_top {B : List ℕ} (hE : Echelon B) :
    ∀ {v : ℕ}, InSpan B v → v ≠ 0 → ∃ b ∈ B, b ≠ 0 ∧ Nat.log2 b = Nat.log2 v := by
  induction B with
  | nil => intro v hv hv0; exact absurd hv hv0
  | cons b bs ih =>
    intro v hv hv0
    have hb0 : b ≠ 0 := hE.1 b (by simp)
    have hEbs : Echelon bs :=
      ⟨fun x hx => hE.1 x (by simp [hx]), (List.pairwise_cons.1 hE.2).2⟩
    have hbdist : ∀ x ∈ bs, Nat.log2 b ≠ Nat.log2 x := (List.pairwise_cons.1 hE.2).1
    rcases hv with hv | hv
    · obtain ⟨b', hb', h0', hl'⟩ := ih hEbs hv hv0
      exact ⟨b', by simp [hb'], h0', hl'⟩
    · by_cases hvb : v ^^^ b = 0
      · have hveq : v = b := by
          have := congrArg (· ^^^ b) hvb
          simpa [Nat.xor_assoc] using this
        exact ⟨b, by simp, hb0, by rw [hveq]⟩
      · obtain ⟨b', hb', h0', hl'⟩ := ih hEbs hv hvb
        have hne : Nat.log2 b ≠ Nat.log2 (v ^^^ b) := fun h =>
          hbdist b' hb' (by rw [hl']; exact h)
        rcases Nat.lt_or_ge (Nat.log2 b) (Nat.log2 (v ^^^ b)) with hlt | hge
        · have hveq : v = (v ^^^ b) ^^^ b := by
            rw [Nat.xor_assoc, Nat.xor_self, Nat.xor_zero]
          have hl2 : Nat.log2 v = Nat.log2 (v ^^^ b) := by
            conv_lhs => rw [hveq]
            exact log2_xor_of_lt hvb hlt
          exact ⟨b', by simp [hb'], h0', by rw [hl', hl2]⟩
        · have hlt' : Nat.log2 (v ^^^ b) < Nat.log2 b :=
            lt_of_le_of_ne hge fun h => hne h.symm
          have hveq : v = b ^^^ (v ^^^ b) := by
            rw [Nat.xor_comm v b, Nat.xor_cancel_left]
          have hl2 : Nat.log2 v = Nat.log2 b := by
            conv_lhs => rw [hveq]
            exact log2_xor_of_lt hb0 hlt'
          exact ⟨b, by simp, hb0, hl2.symm⟩

theorem reduceVec_diff_inSpan (basis : List ℕ) (v : ℕ) :
    InSpan basis (v ^^^ reduceVec basis v) := by
  induction v using Nat.strong_induction_on with
  | _ v ih =>
    rw [reduceVec]
    by_cases hv : v = 0
    · rw [if_pos hv, hv]
      exact inSpan_zero basis
    · rw [if_neg hv]
      cases hfind : basis.find? (fun b => b != 0 && Nat.log2 b == Nat.log2 v) with
      | none =>
        show InSpan basis (v ^^^ v)
        rw [Nat.xor_self]
        exact inSpan_zero basis
      | some b =>
        have hp := List.find?_some hfind
        simp only [Bool.and_eq_true, bne_iff_ne, beq_iff_eq, ne_eq] at hp
        obtain ⟨hb0, hlog⟩ := hp
        have hbmem := List.mem_of_find?_eq_some hfind
        have hdec : v ^^^ b < v := xor_log2_lt hv hb0 hlog
        have H := ih (v ^^^ b) hdec
        have hspan := inSpan_xor (inSpan_mem hbmem) H
        have heq : b ^^^ ((v ^^^ b) ^^^ reduceVec basis (v ^^^ b))
            = v ^^^ reduceVec basis (v ^^^ b) := by
          rw [← Nat.xor_assoc, Nat.xor_comm v b, Nat.xor_cancel_left]
        show InSpan basis (v ^^^ reduceVec basis (v ^^^ b))
        rw [← heq]
        exact hspan

theorem reduceVec_zero_inSpan {basis : List ℕ} {v : ℕ}
    (h : reduceVec basis v = 0) : InSpan basis v := by
  have := reduceVec_diff_inSpan basis v
  rwa [h, Nat.xor_zero] at this

theorem reduceVec_result (basis : List ℕ) (v : ℕ) :
    reduceVec basis v = 0 ∨
      basis.find? (fun b => b != 0 && Nat.log2 b == Nat.log2 (reduceVec basis v))
        = none := by
  induction v using Nat.strong_induction_on with
  | _ v ih =>
    rw [reduceVec]
    by_cases hv : v = 0
    · rw [if_pos hv]
      exact Or.inl rfl
    · rw [if_neg hv]
      cases hfind : basis.find? (fun b => b != 0 && Nat.log2 b == Nat.log2 v) with
      | none => exact Or.inr hfind
      | some b =>
        have hp := List.find?_some hfind
        simp only [Bool.and_eq_true, bne_iff_ne, beq_iff_eq, ne_eq] at hp
        obtain ⟨hb0, hlog⟩ := hp
        exact ih (v ^^^ b) (xor_log2_lt hv hb0 hlog)

theorem echelon_inSpan_reduceVec {basis : List ℕ} (hE : Echelon basis) :
    ∀ v, InSpan basis v → reduceVec basis v = 0 := by
  intro v
  induction v using Nat.strong_induction_on with
  | _ v ih =>
    intro hv
    by_cases hv0 : v = 0
    · rw [reduceVec, if_pos hv0]
    · obtain ⟨bh, hbh, h0h, hlh⟩ := inSpan_top hE hv hv0
      rcases hcase : basis.find? (fun b => b != 0 && Nat.log2 b == Nat.log2 v)
        with _ | b
      · have := List.find?_eq_none.1 hcase bh hbh
        simp [h0h, hlh] at this
      · have hp := List.find?_some hcase
        simp only [Bool.and_eq_true, bne_iff_ne, beq_iff_eq, ne_eq] at hp
        obtain ⟨hb0, hlog⟩ := hp
        have hbmem := List.mem_of_find?_eq_some hcase
        rw [reduceVec, if_neg hv0, hcase]
        show reduceVec basis (v ^^^ b) = 0
        exact ih (v ^^^ b) (xor_log2_lt hv0 hb0 hlog)
          (inSpan_xor hv (inSpan_mem hbmem))

theorem reduceStep_spec (basis : List ℕ) (v : ℕ) (hE : Echelon basis) :
    Echelon (reduceStep basis v) ∧
    (∀ u, InSpan basis u → InSpan (reduceStep basis v) u) ∧
    InSpan (reduceStep basis v) v := by
  by_cases h : reduceVec basis v = 0
  · have hstep : reduceStep basis v = basis := by
      rw [reduceStep]
      simp [h]
    rw [hstep]
    exact ⟨hE, fun u hu => hu, reduceVec_zero_inSpan h⟩
  · have hstep : reduceStep basis v = basis ++ [reduceVec basis v] := by
      rw [reduceStep]
      simp [h]
    rw [hstep]
    have hnone := (reduceVec_result basis v).resolve_left h
    have hwE : Echelon (basis ++ [reduceVec basis v]) := by
      constructor
      · intro b hb
        rcases List.mem_append.1 hb with hb | hb
        · exact hE.1 b hb
        · rw [List.mem_singleton.1 hb]
          exact h
      · rw [List.pairwise_append]
        refine ⟨hE.2, List.pairwise_singleton _ _, ?_⟩
        intro b hb w' hw'
        rw [List.mem_singleton.1 hw']
        have hnotp := List.find?_eq_none.1 hnone b hb
        simp only [Bool.and_eq_true, bne_iff_ne, beq_iff_eq, ne_eq, not_and] at hnotp
        exact hnotp (hE.1 b hb)
    refine ⟨hwE, ?_, ?_⟩
    · intro u hu
      exact inSpan_append hu [reduceVec basis v]
    · have h1 : InSpan (basis ++ [reduceVec basis v]) (v ^^^ reduceVec basis v) :=
        inSpan_append (reduceVec_diff_inSpan basis v) [reduceVec basis v]
      have h2 : InSpan (basis ++ [reduceVec basis v]) (reduceVec basis v) :=
        inSpan_mem (by simp)
      have := inSpan_xor h1 h2
      rwa [Nat.xor_assoc, Nat.xor_self, Nat.xor_zero] at this

theorem reduce_foldl_spec (V : List ℕ) :
    ∀ basis, Echelon basis →
      Echelon (V.foldl reduceStep basis) ∧
      (∀ u, InSpan basis u → InSpan (V.foldl reduceStep basis) u) ∧
      (∀ v ∈ V, InSpan (V.foldl reduceStep basis) v) := by
  induction V with
  | nil =>
    intro basis hE
    refine ⟨hE, fun u hu => hu, ?_⟩
    intro v hv
    cases hv
  | cons x t ih =>
    intro basis hE
    obtain ⟨hE', hmono', hx'⟩ := reduceStep_spec basis x hE
    obtain ⟨h1, h2, h3⟩ := ih (reduceStep basis x) hE'
    rw [List.foldl_cons]
    refine ⟨h1, fun u hu => h2 u (hmono' u hu), ?_⟩
    intro v hv
    rcases List.mem_cons.1 hv with rfl | hv
    · exact h2 v hx'
    · exact h3 v hv

theorem binLinearBasis_spec (V : List ℕ) :
    Echelon (BinLinearBasis V) ∧ ∀ v ∈ V, InSpan (BinLinearBasis V) v := by
  have hemp : Echelon ([] : List ℕ) :=
    ⟨fun b hb => absurd hb (List.not_mem_nil b), List.Pairwise.nil⟩
  obtain ⟨h1, _, h3⟩ := reduce_foldl_spec V [] hemp
  exact ⟨h1, h3⟩

/-- C7: every input vector used to build a basis lies in the span of the basis
produced by reduce: `is_in_span(reduce(V), v)` is true for every `v ∈ V`. -/
theorem is_in_span_reduce (V : List ℕ) (v : ℕ) (hv : v ∈ V) :
    is_in_span (BinLinearBasis V) v = true := by
  obtain ⟨hE, hsp⟩ := binLinearBasis_spec V
  have hz := echelon_inSpan_reduceVec hE v (hsp v hv)
  rw [is_in_span, hz]
  rfl

theorem is_in_span_reduce_witness :
    ((3 : ℕ) ∈ [3, 5, 6]) ∧ is_in_span (BinLinearBasis [3, 5, 6]) 3 = true :=
  ⟨by decide, is_in_span_reduce [3, 5, 6] 3 (by decide)⟩

end SboxU
